import Mathlib

/-!
Verification of the decoding engines declared in
`net/base/lookup_string_in_fixed_set.h` and `net/extras/preload_data/decoder.h`.
The repository contains only the header files; the operation bodies are
modelled from the specification (spec.md), as noted on each definition.
Machine integers are modelled as `Nat` (all quantities involved are
non-negative and no arithmetic here can overflow the C++ types: byte values
stay below 256, bit counts below `size_t` range).
-/

namespace NetSpec

/-- Result code from `lookup_string_in_fixed_set.h`: key is not in the set. -/
def kDafsaNotFound : Int := -1

/-- Result code from `lookup_string_in_fixed_set.h`: key is in the set. -/
def kDafsaFound : Int := 0

/-- Constant from `decoder.h`: the character value 0 marks "end of string" in a
trie dispatch table. -/
def kEndOfString : Nat := 0

/-- Constant from `decoder.h`: the character value 127 marks the end of a trie
dispatch table. -/
def kEndOfTable : Nat := 127

/-- Modelled from the spec: the implementation of `PreloadDecoder::BitReader` is
not in the repository sources (only its declaration in
`net/extras/preload_data/decoder.h`). The five state fields follow the header
(section 4.1 of the spec): byte buffer, total bit count, current byte index,
the cached current byte, and the count of bits already consumed from it. -/
structure BitReader where
  bytes : List Nat
  num_bits : Nat
  current_byte_index : Nat
  current_byte : Nat
  num_bits_used : Nat
deriving DecidableEq, Repr

/-- Modelled from the spec: a fresh reader positioned at bit offset 0, with the
first byte cached. -/
def BitReader.init (bytes : List Nat) (num_bits : Nat) : BitReader :=
  ⟨bytes, num_bits, 0, bytes.headD 0, 0⟩

/-- Absolute bit offset of the cursor. -/
def BitReader.pos (r : BitReader) : Nat :=
  r.current_byte_index * 8 + r.num_bits_used

/-- Modelled from the spec: `BitReader::Next` returns the next single bit
(most-significant bit of each byte first) and fails, leaving the state
unchanged, once `num_bits` bits have been consumed. -/
def BitReader.Next (r : BitReader) : Option Bool × BitReader :=
  if r.pos < r.num_bits then
    let bit : Bool := r.current_byte / 2 ^ (7 - r.num_bits_used) % 2 == 1
    if r.num_bits_used = 7 then
      (some bit, { r with current_byte_index := r.current_byte_index + 1,
                          current_byte := r.bytes.getD (r.current_byte_index + 1) 0,
                          num_bits_used := 0 })
    else
      (some bit, { r with num_bits_used := r.num_bits_used + 1 })
  else (none, r)

/-- Helper for `BitReader.Read`: read `n` bits one at a time, packing them
most-significant-bit first; on any failure the original state is returned. -/
def BitReader.readBitsMSB : Nat → BitReader → Option Nat × BitReader
  | 0, r => (some 0, r)
  | n + 1, r =>
    match r.Next with
    | (none, _) => (none, r)
    | (some b, r1) =>
      match BitReader.readBitsMSB n r1 with
      | (none, _) => (none, r)
      | (some v, r2) => (some ((if b then 1 else 0) * 2 ^ n + v), r2)

/-- Modelled from the spec: `BitReader::Read` returns the next `n` bits packed
as an unsigned integer, most-significant-bit first within the requested width;
it fails without partially consuming bits if fewer than `n` bits remain
(section 4.1 of the spec). -/
def BitReader.Read (n : Nat) (r : BitReader) : Option Nat × BitReader :=
  if r.pos + n ≤ r.num_bits then r.readBitsMSB n else (none, r)

/-- Modelled from the spec: `BitReader::Seek` repositions the cursor to an
absolute bit offset, failing (and leaving the position unchanged) if the offset
is past `num_bits`. -/
def BitReader.Seek (offset : Nat) (r : BitReader) : Bool × BitReader :=
  if offset ≤ r.num_bits then
    (true, { r with current_byte_index := offset / 8,
                    current_byte := r.bytes.getD (offset / 8) 0,
                    num_bits_used := offset % 8 })
  else (false, r)

/-- The `i`-th bit of a byte buffer, most-significant bit of each byte first.
This is the flat-stream specification that the stateful reader is proved
against. -/
def bitAt (bytes : List Nat) (i : Nat) : Bool :=
  bytes.getD (i / 8) 0 / 2 ^ (7 - i % 8) % 2 == 1

/-- The value of `n` consecutive bits of the buffer starting at bit offset `p`,
packed most-significant-bit first. -/
def bitsVal (bytes : List Nat) : Nat → Nat → Nat
  | _, 0 => 0
  | p, n + 1 => (if bitAt bytes p then 1 else 0) * 2 ^ n + bitsVal bytes (p + 1) n

/-- Well-formedness of a reader state: the cached byte is the byte the index
points at, and fewer than 8 bits of it have been consumed. Established by
`BitReader.init` and preserved by every operation. -/
def BitReader.Inv (r : BitReader) : Prop :=
  r.current_byte = r.bytes.getD r.current_byte_index 0 ∧ r.num_bits_used < 8

instance (r : BitReader) : Decidable r.Inv := by
  unfold BitReader.Inv; infer_instance

/-- Modelled from the spec: the second field of a label-node pair in the
fixed-set graph (`lookup_string_in_fixed_set.h` has only declarations in the
sources; section 3 of the spec): either the offset of a child node, or a
result code denoting acceptance with no further children. -/
inductive DafsaRef where
  | child : Nat → DafsaRef
  | result : Nat → DafsaRef
deriving DecidableEq, Repr

/-- Modelled from the spec: one node of the fixed-set graph. `accept` is the
result code when the position at this node itself is accepting (so a string
can be both in the set and a proper prefix of another member); `edges` is the
run of (character, reference) pairs, sorted ascending by character. -/
structure DafsaNode where
  accept : Option Nat
  edges : List (Nat × DafsaRef)
deriving DecidableEq, Repr

/-- Modelled from the spec: the fixed-set graph buffer, abstracted as a list of
nodes addressed by offset. The exact byte packing is explicitly left to the
encoder/decoder contract by the spec (sections 6 and 9), so nodes are modelled
structurally; offset-list nodes have the same externally observable behaviour
as label nodes (section 4.3) and are subsumed by this representation. The root
is the node at offset 0. -/
structure DafsaGraph where
  nodes : List DafsaNode
deriving DecidableEq, Repr

/-- The cursor of `FixedSetIncrementalLookup`, with the three fields named in
the header: a position (index into the graph, `none` once the graph is
exhausted, mirroring the null `pos_` pointer), the end bound `end_`, and the
one-bit discriminator for what the position designates. In the model the
discriminator `pos_is_result` is true when `pos` holds a result code of a
terminal accepting state and false when it holds a node offset. -/
structure FixedSetIncrementalLookup where
  pos : Option Nat
  end_ : Nat
  pos_is_result : Bool
deriving DecidableEq, Repr

/-- Construction binds the cursor to the root of the graph (offset 0),
representing the state after consuming the empty sequence. -/
def FixedSetIncrementalLookup.init (g : DafsaGraph) : FixedSetIncrementalLookup :=
  ⟨some 0, g.nodes.length, false⟩

/-- Copy construction and assignment duplicate the three fields verbatim. -/
def FixedSetIncrementalLookup.copy (c : FixedSetIncrementalLookup) :
    FixedSetIncrementalLookup :=
  ⟨c.pos, c.end_, c.pos_is_result⟩

/-- Scan of a node's pair list for the pair matching the input character. -/
def findEdge (node : DafsaNode) (input : Nat) : Option (Nat × DafsaRef) :=
  node.edges.find? (fun e => e.1 == input)

/-- Modelled from the spec: `FixedSetIncrementalLookup::Advance` (section 4.3).
Consumes one input character: on a matching pair the cursor moves to the
referenced child, or to the terminal accepting state for a result reference,
and the call returns true; with no matching pair (or an exhausted or terminal
cursor, or a position outside the graph) the cursor becomes exhausted and the
call returns false. Once exhausted, further calls return false and leave the
cursor unchanged. -/
def FixedSetIncrementalLookup.Advance (g : DafsaGraph)
    (c : FixedSetIncrementalLookup) (input : Nat) :
    Bool × FixedSetIncrementalLookup :=
  match c.pos with
  | none => (false, c)
  | some k =>
    if c.pos_is_result then
      (false, ⟨none, c.end_, false⟩)
    else
      match g.nodes[k]? with
      | none => (false, ⟨none, c.end_, false⟩)
      | some node =>
        match findEdge node input with
        | none => (false, ⟨none, c.end_, false⟩)
        | some (_, DafsaRef.child off) => (true, ⟨some off, c.end_, false⟩)
        | some (_, DafsaRef.result code) => (true, ⟨some code, c.end_, true⟩)

/-- Modelled from the spec:
`FixedSetIncrementalLookup::GetResultForCurrentSequence` (section 4.3).
Returns `kDafsaNotFound` unless the current position is accepting, in which
case it returns the stored result code. -/
def FixedSetIncrementalLookup.GetResultForCurrentSequence (g : DafsaGraph)
    (c : FixedSetIncrementalLookup) : Int :=
  match c.pos with
  | none => kDafsaNotFound
  | some k =>
    if c.pos_is_result then Int.ofNat k
    else
      match g.nodes[k]? with
      | none => kDafsaNotFound
      | some node =>
        match node.accept with
        | none => kDafsaNotFound
        | some code => Int.ofNat code

/-- Feeding a whole character sequence to the cursor, one `Advance` per
character (the boolean results are carried by the cursor state itself: a
false return leaves it exhausted). -/
def FixedSetIncrementalLookup.advanceAll (g : DafsaGraph)
    (c : FixedSetIncrementalLookup) (inputs : List Nat) :
    FixedSetIncrementalLookup :=
  inputs.foldl (fun c i => (FixedSetIncrementalLookup.Advance g c i).2) c

/-- Two-cursor system used to state frame properties: a pair of cursors of
which only the first is advanced. -/
def advanceFstAll (g : DafsaGraph)
    (p : FixedSetIncrementalLookup × FixedSetIncrementalLookup)
    (inputs : List Nat) :
    FixedSetIncrementalLookup × FixedSetIncrementalLookup :=
  inputs.foldl (fun q i => ((FixedSetIncrementalLookup.Advance g q.1 i).2, q.2)) p

/-- Modelled from the spec: the one-shot walk of `LookupStringInFixedSet`
(section 4.3 describes it as the one-shot version of the incremental walk;
this definition performs the walk directly by recursion on the key, to be
compared with the cursor-based walk in the refinement theorem). -/
def lookupWalk (g : DafsaGraph) : Nat → List Nat → Int
  | off, [] =>
    match g.nodes[off]? with
    | none => kDafsaNotFound
    | some node =>
      match node.accept with
      | none => kDafsaNotFound
      | some code => Int.ofNat code
  | off, ch :: rest =>
    match g.nodes[off]? with
    | none => kDafsaNotFound
    | some node =>
      match findEdge node ch with
      | none => kDafsaNotFound
      | some (_, DafsaRef.child off2) => lookupWalk g off2 rest
      | some (_, DafsaRef.result code) =>
        if rest.isEmpty then Int.ofNat code else kDafsaNotFound

/-- Modelled from the spec: `LookupStringInFixedSet(graph, length, key,
key_length)` returns `kDafsaNotFound` or the result code of `key`, walking the
graph from the root (section 4.3). -/
def LookupStringInFixedSet (g : DafsaGraph) (key : List Nat) : Int :=
  lookupWalk g 0 key

/-- A graph all of whose edge label characters are ASCII, as produced by the
build tool (the header notes the fixed set itself is limited to ASCII
strings). -/
def DafsaGraph.asciiOnly (g : DafsaGraph) : Prop :=
  ∀ node ∈ g.nodes, ∀ e ∈ node.edges, e.1 < 128

instance (g : DafsaGraph) : Decidable g.asciiOnly := by
  unfold DafsaGraph.asciiOnly; infer_instance

/-- The graph of the spec's worked example, encoding the set
{"a" ↦ 0, "ab" ↦ 1, "b" ↦ 2} (characters as ASCII codes). -/
def gExample : DafsaGraph :=
  ⟨[⟨none, [(97, DafsaRef.child 1), (98, DafsaRef.result 2)]⟩,
    ⟨some 0, [(98, DafsaRef.result 1)]⟩]⟩

/-- The empty graph: no nodes at all. -/
def gEmpty : DafsaGraph := ⟨[]⟩

/-- Modelled from the spec: the walking loop of `HuffmanDecoder::Decode`
(section 4.2; the implementation is not in the sources). The first result
component is the decoded symbol (or `none` on failure) with the advanced
reader; the second component records every tree byte position actually read,
so that bounds safety can be stated. The fuel argument only serves
termination: each iteration consumes one bit, so
`r.num_bits - r.pos + 1` steps can never be exhausted (proved below by
relating this function to the step relation `HuffmanStep`). -/
def decodeFromAux (tree : List Nat) :
    Nat → Nat → BitReader → (Option Nat × BitReader) × List Nat
  | 0, _, r => ((none, r), [])
  | fuel + 1, index, r =>
    match r.Next with
    | (none, r1) => ((none, r1), [])
    | (some bit, r1) =>
      let i := 2 * index + (if bit then 1 else 0)
      match tree[i]? with
      | none => ((none, r1), [])
      | some b =>
        if 128 ≤ b then ((some (b % 128), r1), [i])
        else
          match decodeFromAux tree fuel (b % 128) r1 with
          | (res, trace) => (res, i :: trace)

/-- Modelled from the spec: `HuffmanDecoder::Decode` walks the tree from root
node index 0, driven by bits from the reader. -/
def HuffmanDecoder.Decode (tree : List Nat) (r : BitReader) :
    Option Nat × BitReader :=
  (decodeFromAux tree (r.num_bits - r.pos + 1) 0 r).1

/-- The tree byte positions read during a `HuffmanDecoder::Decode` call. -/
def HuffmanDecoder.DecodeAccesses (tree : List Nat) (r : BitReader) :
    List Nat :=
  (decodeFromAux tree (r.num_bits - r.pos + 1) 0 r).2

/-- The decoding algorithm exactly as the spec words it (section 4.2), as a
step relation: from tree node `index`, read one bit; select the tree byte at
`2*index + bit`; if its top bit is set the low 7 bits are the symbol;
otherwise continue from the node whose index is the low 7 bits. Failure cases:
the reader has no bit left, or the computed position is outside the tree
buffer. -/
inductive HuffmanStep (tree : List Nat) :
    Nat → BitReader → Option Nat × BitReader → Prop where
  | noBit : ∀ index r r1, r.Next = (none, r1) →
      HuffmanStep tree index r (none, r1)
  | oob : ∀ index r bit r1, r.Next = (some bit, r1) →
      tree[2 * index + (if bit then 1 else 0)]? = none →
      HuffmanStep tree index r (none, r1)
  | leaf : ∀ index r bit r1 b, r.Next = (some bit, r1) →
      tree[2 * index + (if bit then 1 else 0)]? = some b → 128 ≤ b →
      HuffmanStep tree index r (some (b % 128), r1)
  | node : ∀ index r bit r1 b out, r.Next = (some bit, r1) →
      tree[2 * index + (if bit then 1 else 0)]? = some b → b < 128 →
      HuffmanStep tree (b % 128) r1 out →
      HuffmanStep tree index r out

/-- Modelled from the spec: a node of the preload trie (section 4.4 of the
spec and the comment on `PreloadDecoder::Decode`; the implementation is not in
the sources). A node is a literal character run, which must match exactly,
followed by a dispatch table sorted ascending by character. A table entry
carries either a child node (`Sum.inl`) or, for the end-of-string character,
the searched record (`Sum.inr`, opaque to the walker and handed to the
caller's entry reader). The spec leaves the bit-level layout of nodes to the
encoder/decoder contract (section 9), so nodes are modelled structurally. -/
inductive TrieNode : Type where
  | mk : List Nat → List (Nat × (TrieNode ⊕ Nat)) → TrieNode

mutual

/-- Structural size of a trie node, used to bound the walk length. -/
def TrieNode.size : TrieNode → Nat
  | .mk run table => 1 + run.length + tableSize table

/-- Structural size of a dispatch table. -/
def tableSize : List (Nat × (TrieNode ⊕ Nat)) → Nat
  | [] => 0
  | (_, Sum.inl n) :: rest => 1 + TrieNode.size n + tableSize rest
  | (_, Sum.inr _) :: rest => 1 + tableSize rest

end

mutual

/-- Modelled from the spec: the walk of one trie node (section 4.4, steps 2-4),
mutually with the dispatch-table scan `scanTableF`. The literal run is matched
character by character against the remaining reversed input; exhausting the
input inside the run, or a mismatch, is a clean not-found. The fuel argument
only serves termination of the mutual recursion; `PreloadDecoder.Decode`
supplies enough for any walk. Result: (ok, found). -/
def trieWalkF (re : Nat → Bool × Bool) :
    Nat → TrieNode → List Nat → Bool × Bool
  | 0, _, _ => (false, false)
  | fuel + 1, TrieNode.mk [] table, input => scanTableF re fuel input table
  | _ + 1, TrieNode.mk (_ :: _) _, [] => (true, false)
  | fuel + 1, TrieNode.mk (c :: rs) table, ch :: irest =>
    if c = ch then trieWalkF re fuel (TrieNode.mk rs table) irest
    else (true, false)

/-- Modelled from the spec: the dispatch-table scan (section 4.4, step 3).
Entries are visited in ascending character order. `kEndOfTable` ends the table
(clean not-found). A `kEndOfString` entry is an accepting record: with the
input fully consumed the caller's entry reader decides the outcome, otherwise
the scan moves on. An entry matching the next needed character descends into
its child; an entry character strictly above the needed character means no
match is possible (the table is sorted): clean not-found. A record attached to
a non-`kEndOfString` character, like fuel exhaustion, is an internal
inconsistency (ok=false). -/
def scanTableF (re : Nat → Bool × Bool) :
    Nat → List Nat → List (Nat × (TrieNode ⊕ Nat)) → Bool × Bool
  | 0, _, _ => (false, false)
  | _ + 1, _, [] => (true, false)
  | fuel + 1, input, (c, t) :: rest =>
    if c = kEndOfTable then (true, false)
    else if c = kEndOfString then
      match input, t with
      | [], Sum.inr v => re v
      | [], Sum.inl _ => (false, false)
      | _ :: _, _ => scanTableF re fuel input rest
    else
      match input with
      | [] => scanTableF re fuel input rest
      | ch :: irest =>
        if c = ch then
          match t with
          | Sum.inl n => trieWalkF re fuel n irest
          | Sum.inr _ => (false, false)
        else if ch < c then (true, false)
        else scanTableF re fuel input rest

end

/-- Modelled from the spec: `PreloadDecoder::Decode` resolves the search
string, matched from its last character backward to its first, against the
trie rooted at `root`; `re` stands for the caller-supplied `ReadEntry` hook,
already specialised to the record it would read (returning (ok, found)). The
fuel bound suffices because every step of the walk consumes either one input
character or one structural layer of the current node. -/
def PreloadDecoder.Decode (re : Nat → Bool × Bool) (root : TrieNode)
    (search : List Nat) : Bool × Bool :=
  trieWalkF re (search.length + TrieNode.size root + 1) root search.reverse

/-- A concrete trie for examples: the set {"a"} with record 7, plus the empty
string with record 5 (reversed representation; 97 is the code of 'a'). -/
def trieExample : TrieNode :=
  TrieNode.mk []
    [(kEndOfString, Sum.inr 5),
     (97, Sum.inl (TrieNode.mk [] [(kEndOfString, Sum.inr 7)])),
     (kEndOfTable, Sum.inr 0)]

/-- An entry reader for examples that accepts every record. -/
def reAccept : Nat → Bool × Bool := fun _ => (true, true)

/-- One successful `Next` step: on a well-formed state with a bit remaining, it
returns the flat-stream bit at the cursor position and advances the position
by one, preserving buffer, bit count and well-formedness. -/
theorem BitReader.Next_spec (r : BitReader) (hinv : r.Inv)
    (h : r.pos < r.num_bits) :
    (r.Next).1 = some (bitAt r.bytes r.pos) ∧
    (r.Next).2.bytes = r.bytes ∧ (r.Next).2.num_bits = r.num_bits ∧
    (r.Next).2.pos = r.pos + 1 ∧ (r.Next).2.Inv := by
  obtain ⟨hb, hu⟩ := hinv
  have hlt : r.current_byte_index * 8 + r.num_bits_used < r.num_bits := h
  have h8 : (r.current_byte_index * 8 + r.num_bits_used) / 8 =
      r.current_byte_index := by omega
  have h8m : (r.current_byte_index * 8 + r.num_bits_used) % 8 =
      r.num_bits_used := by omega
  have hbit : bitAt r.bytes r.pos =
      (r.current_byte / 2 ^ (7 - r.num_bits_used) % 2 == 1) := by
    unfold bitAt BitReader.pos
    rw [h8, h8m, hb]
  by_cases h7 : r.num_bits_used = 7
  · have hN : r.Next = (some (bitAt r.bytes r.pos),
        { r with current_byte_index := r.current_byte_index + 1,
                 current_byte := r.bytes.getD (r.current_byte_index + 1) 0,
                 num_bits_used := 0 }) := by
      unfold BitReader.Next
      rw [if_pos h, if_pos h7, hbit]
    rw [hN]
    exact ⟨rfl, rfl, rfl, by unfold BitReader.pos; simp; omega,
      by simp [BitReader.Inv]⟩
  · have hN : r.Next = (some (bitAt r.bytes r.pos),
        { r with num_bits_used := r.num_bits_used + 1 }) := by
      unfold BitReader.Next
      rw [if_pos h, if_neg h7, hbit]
    rw [hN]
    exact ⟨rfl, rfl, rfl, by unfold BitReader.pos; simp; omega,
      by simp [BitReader.Inv, hb]; omega⟩

/-- A failing `Next` step: with no bit remaining it reports exhaustion and
returns the state unchanged. -/
theorem BitReader.Next_exhausted (r : BitReader) (h : r.num_bits ≤ r.pos) :
    r.Next = (none, r) := by
  unfold BitReader.Next
  rw [if_neg (by omega)]

/-- Reading `n` bits one at a time from a well-formed state with `n` bits
remaining succeeds and produces the flat-stream value at the cursor position,
advancing the position by `n`. -/
theorem BitReader.readBitsMSB_spec (n : Nat) :
    ∀ r : BitReader, r.Inv → r.pos + n ≤ r.num_bits →
      (r.readBitsMSB n).1 = some (bitsVal r.bytes r.pos n) ∧
      (r.readBitsMSB n).2.bytes = r.bytes ∧
      (r.readBitsMSB n).2.num_bits = r.num_bits ∧
      (r.readBitsMSB n).2.pos = r.pos + n ∧ (r.readBitsMSB n).2.Inv := by
  induction n with
  | zero =>
    intro r hinv hle
    exact ⟨rfl, rfl, rfl, rfl, hinv⟩
  | succ n ih =>
    intro r hinv hle
    obtain ⟨h1, h2, h3, h4, h5⟩ := BitReader.Next_spec r hinv (by omega)
    rcases hN : r.Next with ⟨ob, r1⟩
    rw [hN] at h1 h2 h3 h4
    simp only at h1 h2 h3 h4
    subst h1
    rw [hN] at h5
    obtain ⟨g1, g2, g3, g4, g5⟩ := ih r1 h5 (by omega)
    rcases hM : r1.readBitsMSB n with ⟨ov, r2⟩
    rw [hM] at g1 g2 g3 g4 g5
    simp only at g1 g2 g3 g4 g5
    subst g1
    simp only [BitReader.readBitsMSB, hN, hM]
    refine ⟨?_, by simp [g2, h2], by simp [g3, h3],
      by simp [g4, h4]; omega, g5⟩
    rw [bitsVal, h2, h4]

/-- C6 as a reusable lemma: `Read` with fewer bits remaining than requested
fails and returns the state unchanged. -/
theorem BitReader.Read_fail_unchanged (r : BitReader) (n : Nat)
    (h : r.num_bits - r.pos < n) :
    (r.Read n).1 = none ∧ (r.Read n).2 = r := by
  unfold BitReader.Read
  rw [if_neg (by omega)]
  exact ⟨rfl, rfl⟩

/-- C6: when `Read` is called with fewer than `n` bits remaining it fails and
leaves the reader's state — byte index, cached byte, bits-used count, indeed
the whole record — exactly as it was before the call; no bits are partially
consumed on failure. -/
theorem BitReader.Read_insufficient_bits (r : BitReader) (n : Nat)
    (h : r.num_bits - r.pos < n) :
    (r.Read n).1 = none ∧
    (r.Read n).2.current_byte_index = r.current_byte_index ∧
    (r.Read n).2.current_byte = r.current_byte ∧
    (r.Read n).2.num_bits_used = r.num_bits_used ∧
    (r.Read n).2 = r := by
  obtain ⟨h1, h2⟩ := BitReader.Read_fail_unchanged r n h
  exact ⟨h1, by rw [h2], by rw [h2], by rw [h2], h2⟩

/-- Witness for C6: a reader over one byte with `num_bits = 4` asked for 5
bits fails with its state intact. -/
theorem BitReader.Read_insufficient_bits_witness :
    ((BitReader.init [176] 4).Read 5).1 = none ∧
    ((BitReader.init [176] 4).Read 5).2.current_byte_index =
      (BitReader.init [176] 4).current_byte_index ∧
    ((BitReader.init [176] 4).Read 5).2.current_byte =
      (BitReader.init [176] 4).current_byte ∧
    ((BitReader.init [176] 4).Read 5).2.num_bits_used =
      (BitReader.init [176] 4).num_bits_used ∧
    ((BitReader.init [176] 4).Read 5).2 = BitReader.init [176] 4 :=
  BitReader.Read_insufficient_bits (BitReader.init [176] 4) 5 (by decide)

/-- C7: `Seek` repositions the cursor to the absolute bit offset and returns
true exactly when the offset is at most `num_bits`; for a larger offset it
returns false and leaves the cursor unchanged. -/
theorem BitReader.Seek_spec (r : BitReader) (offset : Nat) :
    (offset ≤ r.num_bits →
        (r.Seek offset).1 = true ∧ (r.Seek offset).2.pos = offset ∧
        (r.Seek offset).2.bytes = r.bytes ∧
        (r.Seek offset).2.num_bits = r.num_bits ∧ (r.Seek offset).2.Inv) ∧
    (r.num_bits < offset →
        (r.Seek offset).1 = false ∧ (r.Seek offset).2 = r) := by
  constructor
  · intro h
    unfold BitReader.Seek
    rw [if_pos h]
    refine ⟨rfl, ?_, rfl, rfl, rfl, by simp; omega⟩
    unfold BitReader.pos
    simp
    omega
  · intro h
    unfold BitReader.Seek
    rw [if_neg (by omega)]
    exact ⟨rfl, rfl⟩

/-- C8: with at least `n` bits remaining in a well-formed reader, `Read n`
succeeds and packs the next `n` bits of the stream most-significant-bit first
into the `n` least-significant bits of the result; concretely, over the single
byte 0b10110000 with `num_bits = 4`, `Read 4` yields 11 (0b1011) and a
subsequent `Read 4` fails. -/
theorem BitReader.Read_success :
    (∀ (r : BitReader) (n : Nat), r.Inv → r.pos + n ≤ r.num_bits →
        (r.Read n).1 = some (bitsVal r.bytes r.pos n) ∧
        (r.Read n).2.pos = r.pos + n ∧ (r.Read n).2.bytes = r.bytes ∧
        (r.Read n).2.num_bits = r.num_bits ∧ (r.Read n).2.Inv) ∧
    ((BitReader.init [176] 4).Read 4).1 = some 11 ∧
    (((BitReader.init [176] 4).Read 4).2.Read 4).1 = none := by
  refine ⟨?_, by decide, by decide⟩
  intro r n hinv hle
  have hs := BitReader.readBitsMSB_spec n r hinv hle
  unfold BitReader.Read
  rw [if_pos hle]
  exact ⟨hs.1, hs.2.2.2.1, hs.2.1, hs.2.2.1, hs.2.2.2.2⟩

/-- Advancing an exhausted cursor returns false and the cursor unchanged. -/
theorem advance_exhausted (g : DafsaGraph) (e : Nat) (b : Bool) (i : Nat) :
    FixedSetIncrementalLookup.Advance g ⟨none, e, b⟩ i = (false, ⟨none, e, b⟩) :=
  rfl

/-- Unfolding one step of `advanceAll`. -/
theorem advanceAll_cons (g : DafsaGraph) (c : FixedSetIncrementalLookup)
    (i : Nat) (is : List Nat) :
    FixedSetIncrementalLookup.advanceAll g c (i :: is) =
      FixedSetIncrementalLookup.advanceAll g
        (FixedSetIncrementalLookup.Advance g c i).2 is :=
  rfl

/-- An exhausted cursor never changes again under any advance sequence. -/
theorem advanceAll_exhausted (g : DafsaGraph) (e : Nat) (b : Bool)
    (inputs : List Nat) :
    FixedSetIncrementalLookup.advanceAll g ⟨none, e, b⟩ inputs = ⟨none, e, b⟩ := by
  induction inputs with
  | nil => rfl
  | cons i is ih => rw [advanceAll_cons]; exact ih

/-- When `Advance` answers false, the new cursor is exhausted (`pos = none`). -/
theorem advance_false_pos_none (g : DafsaGraph) (c : FixedSetIncrementalLookup)
    (i : Nat) (h : (FixedSetIncrementalLookup.Advance g c i).1 = false) :
    (FixedSetIncrementalLookup.Advance g c i).2.pos = none := by
  obtain ⟨p, e, bb⟩ := c
  cases p with
  | none => rfl
  | some k =>
    cases bb with
    | true => rfl
    | false =>
      rcases hg : g.nodes[k]? with _ | node
      · simp [FixedSetIncrementalLookup.Advance, hg]
      · rcases hf : findEdge node i with _ | ⟨ch, ref⟩
        · simp [FixedSetIncrementalLookup.Advance, hg, hf]
        · cases ref with
          | child off =>
            simp [FixedSetIncrementalLookup.Advance, hg, hf] at h
          | result code =>
            simp [FixedSetIncrementalLookup.Advance, hg, hf] at h

/-- C2: once one `Advance` call has returned false, every later `Advance` on
that cursor returns false and leaves its state unchanged, and
`GetResultForCurrentSequence` keeps returning `kDafsaNotFound`, whatever
further characters are fed. -/
theorem advance_false_sticky (g : DafsaGraph) (c : FixedSetIncrementalLookup)
    (input : Nat) (h : (FixedSetIncrementalLookup.Advance g c input).1 = false) :
    (∀ input2, FixedSetIncrementalLookup.Advance g
        (FixedSetIncrementalLookup.Advance g c input).2 input2 =
        (false, (FixedSetIncrementalLookup.Advance g c input).2)) ∧
    (∀ inputs, FixedSetIncrementalLookup.advanceAll g
        (FixedSetIncrementalLookup.Advance g c input).2 inputs =
        (FixedSetIncrementalLookup.Advance g c input).2) ∧
    (∀ inputs, FixedSetIncrementalLookup.GetResultForCurrentSequence g
        (FixedSetIncrementalLookup.advanceAll g
          (FixedSetIncrementalLookup.Advance g c input).2 inputs) =
        kDafsaNotFound) := by
  have hp := advance_false_pos_none g c input h
  rcases hc1 : (FixedSetIncrementalLookup.Advance g c input).2 with ⟨p, e, bb⟩
  rw [hc1] at hp
  have hp' : p = none := hp
  subst hp'
  exact ⟨fun _ => rfl, fun is => advanceAll_exhausted g e bb is,
    fun is => by rw [advanceAll_exhausted]; rfl⟩

/-- Witness for C2: on the empty graph the very first `Advance` fails, and the
cursor then stays exhausted and not-found forever. -/
theorem advance_false_sticky_witness :
    (∀ input2, FixedSetIncrementalLookup.Advance gEmpty
        (FixedSetIncrementalLookup.Advance gEmpty
          (FixedSetIncrementalLookup.init gEmpty) 97).2 input2 =
        (false, (FixedSetIncrementalLookup.Advance gEmpty
          (FixedSetIncrementalLookup.init gEmpty) 97).2)) ∧
    (∀ inputs, FixedSetIncrementalLookup.advanceAll gEmpty
        (FixedSetIncrementalLookup.Advance gEmpty
          (FixedSetIncrementalLookup.init gEmpty) 97).2 inputs =
        (FixedSetIncrementalLookup.Advance gEmpty
          (FixedSetIncrementalLookup.init gEmpty) 97).2) ∧
    (∀ inputs, FixedSetIncrementalLookup.GetResultForCurrentSequence gEmpty
        (FixedSetIncrementalLookup.advanceAll gEmpty
          (FixedSetIncrementalLookup.Advance gEmpty
            (FixedSetIncrementalLookup.init gEmpty) 97).2 inputs) =
        kDafsaNotFound) :=
  advance_false_sticky gEmpty (FixedSetIncrementalLookup.init gEmpty) 97
    (by decide)

/-- A cursor parked on a terminal accepting state: its result is the stored
code for the empty remainder and not-found for any longer remainder. -/
theorem advanceAll_terminal (g : DafsaGraph) (code e : Nat)
    (inputs : List Nat) :
    FixedSetIncrementalLookup.GetResultForCurrentSequence g
      (FixedSetIncrementalLookup.advanceAll g ⟨some code, e, true⟩ inputs) =
      if inputs.isEmpty then Int.ofNat code else kDafsaNotFound := by
  cases inputs with
  | nil => rfl
  | cons i is =>
    rw [advanceAll_cons]
    have h1 : (FixedSetIncrementalLookup.Advance g ⟨some code, e, true⟩ i).2 =
        ⟨none, e, false⟩ := rfl
    rw [h1, advanceAll_exhausted]
    rfl

/-- The incremental walk started at any node position computes the direct
one-shot walk from that node. -/
theorem advanceAll_node (g : DafsaGraph) (key : List Nat) :
    ∀ off e : Nat,
      FixedSetIncrementalLookup.GetResultForCurrentSequence g
        (FixedSetIncrementalLookup.advanceAll g ⟨some off, e, false⟩ key) =
      lookupWalk g off key := by
  induction key with
  | nil =>
    intro off e
    rcases hg : g.nodes[off]? with _ | node
    · simp [FixedSetIncrementalLookup.advanceAll,
        FixedSetIncrementalLookup.GetResultForCurrentSequence, lookupWalk, hg]
    · simp [FixedSetIncrementalLookup.advanceAll,
        FixedSetIncrementalLookup.GetResultForCurrentSequence, lookupWalk, hg]
  | cons ch rest ih =>
    intro off e
    rw [advanceAll_cons]
    rcases hg : g.nodes[off]? with _ | node
    · have h1 : (FixedSetIncrementalLookup.Advance g ⟨some off, e, false⟩ ch).2 =
          ⟨none, e, false⟩ := by
        simp [FixedSetIncrementalLookup.Advance, hg]
      rw [h1, advanceAll_exhausted]
      simp [lookupWalk, hg]
      rfl
    · rcases hf : findEdge node ch with _ | ⟨c2, ref⟩
      · have h1 : (FixedSetIncrementalLookup.Advance g ⟨some off, e, false⟩ ch).2 =
            ⟨none, e, false⟩ := by
          simp [FixedSetIncrementalLookup.Advance, hg, hf]
        rw [h1, advanceAll_exhausted]
        simp [lookupWalk, hg, hf]
        rfl
      · cases ref with
        | child off2 =>
          have h1 : (FixedSetIncrementalLookup.Advance g ⟨some off, e, false⟩ ch).2 =
              ⟨some off2, e, false⟩ := by
            simp [FixedSetIncrementalLookup.Advance, hg, hf]
          rw [h1, ih off2 e]
          simp [lookupWalk, hg, hf]
        | result code =>
          have h1 : (FixedSetIncrementalLookup.Advance g ⟨some off, e, false⟩ ch).2 =
              ⟨some code, e, true⟩ := by
            simp [FixedSetIncrementalLookup.Advance, hg, hf]
          rw [h1, advanceAll_terminal]
          simp [lookupWalk, hg, hf]

/-- C1: feeding a string one character at a time to a fresh cursor and reading
the result after the final character gives exactly the one-shot lookup of that
string, and the cursor's result after any prefix equals the one-shot lookup of
that prefix. -/
theorem incremental_matches_oneshot (g : DafsaGraph) (S : List Nat) :
    FixedSetIncrementalLookup.GetResultForCurrentSequence g
      (FixedSetIncrementalLookup.advanceAll g
        (FixedSetIncrementalLookup.init g) S) = LookupStringInFixedSet g S ∧
    ∀ i, i ≤ S.length →
      FixedSetIncrementalLookup.GetResultForCurrentSequence g
        (FixedSetIncrementalLookup.advanceAll g
          (FixedSetIncrementalLookup.init g) (S.take i)) =
        LookupStringInFixedSet g (S.take i) := by
  refine ⟨?_, fun i _ => ?_⟩
  · exact advanceAll_node g S 0 g.nodes.length
  · exact advanceAll_node g (S.take i) 0 g.nodes.length

/-- C9: copy construction duplicates the three cursor fields verbatim, and
advancing the copy through any input sequence leaves the original cursor and
its lookup result untouched, while the copy behaves exactly as the original
would have. -/
theorem copy_independence (g : DafsaGraph) (c : FixedSetIncrementalLookup) :
    (c.copy.pos = c.pos ∧ c.copy.end_ = c.end_ ∧
      c.copy.pos_is_result = c.pos_is_result) ∧
    (∀ inputs, (advanceFstAll g (c.copy, c) inputs).2 = c) ∧
    (∀ inputs, FixedSetIncrementalLookup.GetResultForCurrentSequence g
        (advanceFstAll g (c.copy, c) inputs).2 =
      FixedSetIncrementalLookup.GetResultForCurrentSequence g c) ∧
    (∀ inputs, (advanceFstAll g (c.copy, c) inputs).1 =
      FixedSetIncrementalLookup.advanceAll g c inputs) := by
  have hcopy : c.copy = c := rfl
  have hsnd : ∀ (inputs : List Nat) p, (advanceFstAll g p inputs).2 = p.2 := by
    intro inputs
    induction inputs with
    | nil => intro p; rfl
    | cons i is ih => intro p; exact ih _
  have hfst : ∀ (inputs : List Nat) p, (advanceFstAll g p inputs).1 =
      FixedSetIncrementalLookup.advanceAll g p.1 inputs := by
    intro inputs
    induction inputs with
    | nil => intro p; rfl
    | cons i is ih => intro p; exact ih _
  refine ⟨⟨rfl, rfl, rfl⟩, fun is => hsnd is _, fun is => by rw [hsnd],
    fun is => ?_⟩
  have h := hfst is (c.copy, c)
  rw [hcopy] at h
  exact h

/-- C10: `Advance` is total on every input byte, but on a graph whose label
characters are all ASCII a non-ASCII input (value above 127) never matches any
transition: the call returns false and the cursor is exhausted afterwards. -/
theorem advance_nonascii (g : DafsaGraph) (c : FixedSetIncrementalLookup)
    (input : Nat) (hg : g.asciiOnly) (hi : 127 < input) :
    (FixedSetIncrementalLookup.Advance g c input).1 = false ∧
    (FixedSetIncrementalLookup.Advance g c input).2.pos = none := by
  obtain ⟨p, e, bb⟩ := c
  cases p with
  | none => exact ⟨rfl, rfl⟩
  | some k =>
    cases bb with
    | true => exact ⟨rfl, rfl⟩
    | false =>
      rcases hk : g.nodes[k]? with _ | node
      · simp [FixedSetIncrementalLookup.Advance, hk]
      · have hnode : node ∈ g.nodes := List.getElem?_mem hk
        have hf : findEdge node input = none := by
          unfold findEdge
          rw [List.find?_eq_none]
          intro e' he'
          have := hg node hnode e' he'
          simp
          omega
        simp [FixedSetIncrementalLookup.Advance, hk, hf]

/-- Witness for C10: the spec's example graph is all-ASCII and a fresh cursor
fed the byte 200 fails and is exhausted. -/
theorem advance_nonascii_witness :
    (FixedSetIncrementalLookup.Advance gExample
      (FixedSetIncrementalLookup.init gExample) 200).1 = false ∧
    (FixedSetIncrementalLookup.Advance gExample
      (FixedSetIncrementalLookup.init gExample) 200).2.pos = none :=
  advance_nonascii gExample (FixedSetIncrementalLookup.init gExample) 200
    (by decide) (by decide)

/-- A successful `Next` consumes exactly one bit of the stream: this holds for
every state, not only well-formed ones, and carries the facts the fuel bound
of the Huffman walk rests on. -/
theorem BitReader.Next_some (r : BitReader) (b : Bool) (r1 : BitReader)
    (h : r.Next = (some b, r1)) :
    r.pos < r.num_bits ∧ r1.num_bits = r.num_bits ∧ r1.pos = r.pos + 1 := by
  by_cases hlt : r.pos < r.num_bits
  · unfold BitReader.Next at h
    rw [if_pos hlt] at h
    by_cases h7 : r.num_bits_used = 7
    · rw [if_pos h7] at h
      injection h with h1 h2
      subst h2
      refine ⟨hlt, rfl, ?_⟩
      unfold BitReader.pos
      simp
      omega
    · rw [if_neg h7] at h
      injection h with h1 h2
      subst h2
      refine ⟨hlt, rfl, ?_⟩
      unfold BitReader.pos
      simp
      omega
  · rw [BitReader.Next_exhausted r (by omega)] at h
    injection h with h1 h2
    cases h1

/-- Running the fueled Huffman walk with fuel above the remaining bit count
produces exactly a `HuffmanStep` outcome. -/
theorem decodeFromAux_step (tree : List Nat) :
    ∀ fuel index (r : BitReader), r.num_bits - r.pos < fuel →
      HuffmanStep tree index r (decodeFromAux tree fuel index r).1 := by
  intro fuel
  induction fuel with
  | zero => intro index r h; omega
  | succ fuel ih =>
    intro index r h
    rcases hN : r.Next with ⟨ob, r1⟩
    cases ob with
    | none =>
      simp only [decodeFromAux, hN]
      exact HuffmanStep.noBit index r r1 hN
    | some bit =>
      obtain ⟨hlt, hnb, hpos⟩ := BitReader.Next_some r bit r1 hN
      rcases hT : tree[2 * index + (if bit then 1 else 0)]? with _ | b
      · simp only [decodeFromAux, hN, hT]
        exact HuffmanStep.oob index r bit r1 hN hT
      · by_cases hb : 128 ≤ b
        · simp only [decodeFromAux, hN, hT, if_pos hb]
          exact HuffmanStep.leaf index r bit r1 b hN hT hb
        · have hrec := ih (b % 128) r1 (by omega)
          rcases hD : decodeFromAux tree fuel (b % 128) r1 with ⟨res, trace⟩
          rw [hD] at hrec
          simp only [decodeFromAux, hN, hT, if_neg hb, hD]
          exact HuffmanStep.node index r bit r1 b res hN hT (by omega) hrec

/-- Conversely, any `HuffmanStep` outcome is what the fueled walk returns, for
every sufficient fuel. -/
theorem huffmanStep_decode (tree : List Nat) (index : Nat) (r : BitReader)
    (out : Option Nat × BitReader) (h : HuffmanStep tree index r out) :
    ∀ fuel, r.num_bits - r.pos < fuel →
      (decodeFromAux tree fuel index r).1 = out := by
  induction h with
  | noBit index r r1 hN =>
    intro fuel hf
    cases fuel with
    | zero => omega
    | succ fuel => simp only [decodeFromAux, hN]
  | oob index r bit r1 hN hT =>
    intro fuel hf
    cases fuel with
    | zero => omega
    | succ fuel => simp only [decodeFromAux, hN, hT]
  | leaf index r bit r1 b hN hT hb =>
    intro fuel hf
    cases fuel with
    | zero => omega
    | succ fuel => simp only [decodeFromAux, hN, hT, if_pos hb]
  | node index r bit r1 b out hN hT hb hstep ih =>
    intro fuel hf
    cases fuel with
    | zero => omega
    | succ fuel =>
      obtain ⟨hlt, hnb, hpos⟩ := BitReader.Next_some r bit r1 hN
      have hi := ih fuel (by omega)
      have hb' : ¬128 ≤ b := by omega
      rcases hD : decodeFromAux tree fuel (b % 128) r1 with ⟨res, trace⟩
      rw [hD] at hi
      simp only [decodeFromAux, hN, hT, if_neg hb', hD]
      simpa using hi

/-- C3: `HuffmanDecoder::Decode` computes exactly the walk the spec describes:
starting at tree node index 0 (the root), read one bit, select the tree byte
at `2*index + bit`; a set top bit makes the low 7 bits the decoded symbol,
otherwise the low 7 bits become the next node index and the walk repeats
(failing when bits run out or an index leaves the buffer). -/
theorem huffman_decode_algorithm (tree : List Nat) (r : BitReader)
    (out : Option Nat × BitReader) :
    HuffmanDecoder.Decode tree r = out ↔ HuffmanStep tree 0 r out := by
  constructor
  · intro h
    rw [← h]
    exact decodeFromAux_step tree (r.num_bits - r.pos + 1) 0 r (by omega)
  · intro h
    exact huffmanStep_decode tree 0 r out h (r.num_bits - r.pos + 1) (by omega)

/-- Every tree byte position the Huffman walk reads lies inside the tree. -/
theorem decodeFromAux_trace_bounds (tree : List Nat) :
    ∀ fuel index (r : BitReader) i,
      i ∈ (decodeFromAux tree fuel index r).2 → i < tree.length := by
  intro fuel
  induction fuel with
  | zero => intro index r i hi; simp [decodeFromAux] at hi
  | succ fuel ih =>
    intro index r i hi
    rcases hN : r.Next with ⟨ob, r1⟩
    cases ob with
    | none => simp [decodeFromAux, hN] at hi
    | some bit =>
      rcases hT : tree[2 * index + (if bit then 1 else 0)]? with _ | b
      · simp [decodeFromAux, hN, hT] at hi
      · have hin : 2 * index + (if bit then 1 else 0) < tree.length := by
          rcases List.getElem?_eq_some.mp hT with ⟨hl, _⟩
          exact hl
        by_cases hb : 128 ≤ b
        · simp [decodeFromAux, hN, hT, if_pos hb] at hi
          omega
        · rcases hD : decodeFromAux tree fuel (b % 128) r1 with ⟨res, trace⟩
          simp [decodeFromAux, hN, hT, if_neg hb, hD] at hi
          rcases hi with hi | hi
          · omega
          · have := ih (b % 128) r1 i (by rw [hD]; exact hi)
            exact this

/-- C4: for every tree buffer (corrupt ones included) and reader state, the
Huffman decode never reads a byte outside the tree buffer, and it reports
failure — rather than an out-of-bounds access — when the reader is out of
bits at any step or a computed position would leave the buffer. -/
theorem huffman_decode_safe :
    (∀ (tree : List Nat) (r : BitReader) (i : Nat),
        i ∈ HuffmanDecoder.DecodeAccesses tree r → i < tree.length) ∧
    (∀ (tree : List Nat) (r : BitReader), r.num_bits ≤ r.pos →
        HuffmanDecoder.Decode tree r = (none, r)) ∧
    (∀ (tree : List Nat) (fuel index : Nat) (r r1 : BitReader),
        r.Next = (none, r1) →
        (decodeFromAux tree (fuel + 1) index r).1 = (none, r1)) ∧
    (∀ (tree : List Nat) (fuel index : Nat) (r r1 : BitReader) (bit : Bool),
        r.Next = (some bit, r1) →
        tree.length ≤ 2 * index + (if bit then 1 else 0) →
        (decodeFromAux tree (fuel + 1) index r).1 = (none, r1)) := by
  refine ⟨?_, ?_, ?_, ?_⟩
  · intro tree r i hi
    exact decodeFromAux_trace_bounds tree (r.num_bits - r.pos + 1) 0 r i hi
  · intro tree r h
    have hN := BitReader.Next_exhausted r h
    unfold HuffmanDecoder.Decode
    have hz : r.num_bits - r.pos = 0 := by omega
    rw [hz]
    simp only [decodeFromAux, hN]
  · intro tree fuel index r r1 hN
    simp only [decodeFromAux, hN]
  · intro tree fuel index r r1 bit hN hlen
    have hT : tree[2 * index + (if bit then 1 else 0)]? = none :=
      List.getElem?_eq_none hlen
    simp only [decodeFromAux, hN, hT]

/-- C5: during the dispatch-table scan, an entry character strictly above the
next needed reversed-input character ends the decode as a clean not-found
(ok=true, found=false), as does reaching the `kEndOfTable` marker (127)
without a match; in particular a search string whose reverse diverges from
the trie at its very first character decodes to ok=true, found=false, shown
both for a literal-run divergence in general and on a concrete trie. -/
theorem trie_clean_not_found :
    (∀ (re : Nat → Bool × Bool) (fuel : Nat) (t : TrieNode ⊕ Nat)
        (rest : List (Nat × (TrieNode ⊕ Nat))) (c ch : Nat) (irest : List Nat),
        ch < c →
        scanTableF re (fuel + 1) (ch :: irest) ((c, t) :: rest) =
          (true, false)) ∧
    (∀ (re : Nat → Bool × Bool) (fuel : Nat) (t : TrieNode ⊕ Nat)
        (rest : List (Nat × (TrieNode ⊕ Nat))) (input : List Nat),
        scanTableF re (fuel + 1) input ((kEndOfTable, t) :: rest) =
          (true, false)) ∧
    (∀ (re : Nat → Bool × Bool) (c : Nat) (rs : List Nat)
        (table : List (Nat × (TrieNode ⊕ Nat))) (search : List Nat)
        (ch : Nat) (irest : List Nat),
        search.reverse = ch :: irest → c ≠ ch →
        PreloadDecoder.Decode re (TrieNode.mk (c :: rs) table) search =
          (true, false)) ∧
    PreloadDecoder.Decode reAccept trieExample [98] = (true, false) := by
  refine ⟨?_, ?_, ?_, by decide⟩
  · intro re fuel t rest c ch irest hlt
    have hc0 : ¬c = kEndOfString := by unfold kEndOfString; omega
    by_cases hcT : c = kEndOfTable
    · simp only [scanTableF, if_pos hcT]
    · have hne : ¬c = ch := by omega
      simp only [scanTableF, if_neg hcT, if_neg hc0, if_neg hne, if_pos hlt]
  · intro re fuel t rest input
    simp [scanTableF]
  · intro re c rs table search ch irest hrev hne
    unfold PreloadDecoder.Decode
    rw [hrev]
    simp only [trieWalkF, if_neg hne]

end NetSpec
